import Mathlib

/-!
Verification of `docs/combine_docs.py`, the script that merges the HTML doc
builds of Optimum hardware subpackages into the parent Optimum documentation.
The table-of-contents structures, the rewrite pass `rename_subpackage_toc`,
the fixed Neuron redirect entry, the title shortening
`title.split("Optimum ")[-1]`, the path relocation
`rename_copy_subpackage_html_paths` and the orchestration loop of `main` are
embedded as pure Lean functions.  File system reads are abstracted: the
`_toctree.yml` contents found for each subpackage become an explicit
environment `String → List Entry`, and the set of HTML files found by
`rglob` becomes an explicit list of paths (given as their `parts` lists).
Python exceptions (`KeyError` on a missing mapping key, `IndexError` on an
out-of-range index) are modelled with `Except PyErr`.
-/

namespace CombineDocs

/-- A table-of-contents entry as stored in `_toctree.yml`: a YAML mapping with
optional keys `title`, `local` (here `loc`, since `local` is a Lean keyword),
`sections` (here `secs`) and `isExpanded`.  `secs`, when present, holds the
ordered child entries. -/
inductive Entry where
  | mk (title : Option String) (loc : Option String) (secs : Option (List Entry)) (isExpanded : Option Bool)

/-- Python exceptions the script can raise while transforming structures:
`KeyError` for a missing mapping key and `IndexError` for an out-of-range
sequence index. -/
inductive PyErr where
  | keyError
  | indexError
deriving DecidableEq

/-- Whether an entry carries a `sections` key. -/
def Entry.hasSections : Entry → Bool
  | .mk _ _ (some _) _ => true
  | .mk _ _ none _ => false

mutual

/-- Body of the outer loop of `rename_subpackage_toc` (combine_docs.py lines
29-35) for a single top-level `item`: the source reads `item["sections"]`
unconditionally, so an item without a `sections` key raises a `KeyError`;
otherwise each entry of the section list is processed by `renameFiles`. -/
def renameItem (subpackage : String) : Entry → Except PyErr Entry
  | .mk _ _ none _ => .error .keyError
  | .mk t l (some secs) e =>
      (renameFiles subpackage secs).map fun secs2 => .mk t l (some secs2) e

/-- Inner loop of `rename_subpackage_toc` over `item["sections"]` (lines
30-35): an entry with a `local` key gets `"<subpackage>/"` prepended to its
value (its other keys, including any nested `sections`, are untouched);
otherwise the source calls `rename_subpackage_toc(subpackage, [file])`, whose
loop runs exactly once on `file`, i.e. it is `renameItem` applied to `file`. -/
def renameFiles (subpackage : String) : List Entry → Except PyErr (List Entry)
  | [] => .ok []
  | .mk t (some l) sec e :: rest =>
      (renameFiles subpackage rest).map fun r2 =>
        .mk t (some (subpackage ++ "/" ++ l)) sec e :: r2
  | .mk t none sec e :: rest => do
      let f2 ← renameItem subpackage (.mk t none sec e)
      let r2 ← renameFiles subpackage rest
      pure (f2 :: r2)

end

/-- `rename_subpackage_toc` (combine_docs.py lines 21-35): prefix every
`local` reference found in the section lists with `"<subpackage>/"`.  The
Python function mutates `toc` in place; here the rewritten list is returned,
with `Except` recording a raised `KeyError`. -/
def rename_subpackage_toc (subpackage : String) : List Entry → Except PyErr (List Entry)
  | [] => .ok []
  | item :: rest => do
      let item2 ← renameItem subpackage item
      let rest2 ← rename_subpackage_toc subpackage rest
      pure (item2 :: rest2)

/-- The separator `"Optimum "` of the `str.split` call on line 139, as its
list of eight characters (`"Optimum ".toList`). -/
def OPT : List Char := ['O', 'p', 't', 'i', 'm', 'u', 'm', ' ']

/-- Prepend a character to the first piece of a split result. -/
def consHead (c : Char) : List (List Char) → List (List Char)
  | [] => [[c]]
  | h :: t => (c :: h) :: t

/-- Python `title.split("Optimum ")` (line 139) on the character list of the
title: non-overlapping occurrences of the fixed eight-character separator are
found left to right and the string is cut at each of them.  The result is
always non-empty, and splitting a string without any occurrence yields the
one-element list containing it. -/
def splitOnOptimum : List Char → List (List Char)
  | [] => [[]]
  | 'O' :: 'p' :: 't' :: 'i' :: 'm' :: 'u' :: 'm' :: ' ' :: rest => [] :: splitOnOptimum rest
  | c :: rest => consHead c (splitOnOptimum rest)

/-- Whether `"Optimum "` occurs as a contiguous substring of `s`. -/
def hasOptimum : List Char → Bool
  | [] => false
  | c :: rest => OPT.isPrefixOf (c :: rest) || hasOptimum rest

/-- Python `title.split("Optimum ")[-1]` (line 139): the last piece of the
split, i.e. everything after the last occurrence of `"Optimum "`, or the
whole title if it has no occurrence. -/
def shorten_title (t : String) : String :=
  ((splitOnOptimum t.data).getLastD []).asString

/-- Python `list.insert(1, x)` as used on lines 91 and 142: the new element
is placed right after the first existing element (at the end if the list is
empty, matching Python's clamping behaviour). -/
def insert1 (x : Entry) : List Entry → List Entry
  | [] => [x]
  | h :: t => h :: x :: t

/-- `add_neuron_doc` (combine_docs.py lines 83-105): insert the hand-written
Optimum Neuron redirect section at position 1 of the parent table of
contents. -/
def add_neuron_doc (base_toc : List Entry) : List Entry :=
  insert1
    (.mk (some "AWS Trainium/Inferentia") none
      (some [.mk (some "🤗 Optimum Neuron") (some "docs/optimum-neuron/index") none none])
      (some false))
    base_toc

/-- Lines 137-139 of `main` applied to one subpackage's loaded table of
contents: rewrite it with `rename_subpackage_toc`, then replace the title of
its first entry (`subpackage_toc[0]["title"]`, an `IndexError` on an empty
list and a `KeyError` on a missing title) by its shortened form.  The result
is the entry that line 142 would insert into the parent table of contents. -/
def subpackage_entry (subpackage : String) (subpackage_toc : List Entry) : Except PyErr Entry := do
  let toc2 ← rename_subpackage_toc subpackage subpackage_toc
  match toc2 with
  | [] => .error .indexError
  | .mk title l secs e :: _ =>
      match title with
      | none => .error .keyError
      | some t => .ok (.mk (some (shorten_title t)) l secs e)

/-- One iteration of the loop of `main` (combine_docs.py lines 117-142).  The
state is the parent table of contents paired with the list of subpackages
whose HTML files have been relocated so far (the file-copy side effect of
`rename_copy_subpackage_html_paths`, recorded in iteration order).  The
`"neuron"` subpackage only receives the fixed redirect entry; every other
subpackage is relocated, rewritten, title-shortened and, unless it is
`"graphcore"`, inserted at position 1. -/
def process_subpackage (subpackage_tocs : String → List Entry)
    (st : List Entry × List String) (subpackage : String) :
    Except PyErr (List Entry × List String) :=
  if subpackage = "neuron" then
    .ok (add_neuron_doc st.1, st.2)
  else do
    let relocated := st.2 ++ [subpackage]
    let entry ← subpackage_entry subpackage (subpackage_tocs subpackage)
    if subpackage ≠ "graphcore" then
      .ok (insert1 entry st.1, relocated)
    else
      .ok (st.1, relocated)

/-- The loop of `main` (combine_docs.py line 117): the subpackages supplied on
the command line are processed in reverse order (`args.subpackages[::-1]`),
threading the parent table of contents (and the relocation record) through
`process_subpackage`.  `subpackage_tocs` abstracts the `_toctree.yml` found
under `<subpackage>-doc-build` for each subpackage. -/
def main_loop (subpackage_tocs : String → List Entry) (subpackages : List String)
    (base_toc : List Entry) : Except PyErr (List Entry × List String) :=
  subpackages.reverse.foldlM (process_subpackage subpackage_tocs) (base_toc, [])

/-- Destination computation of `rename_copy_subpackage_html_paths` for one
HTML file (combine_docs.py lines 69-80).  A path is given as its list of
parts; `parts[3]` is the language folder (an `IndexError` when the path has
fewer than four parts), and everything below it is reattached under
`<optimum_path>/optimum/<version>/<language>/<subpackage>/`.  The returned
pair is the source path and the destination of the `copyfile` call. -/
def relocate_html_file (subpackage : String) (optimum_path version : String)
    (html_path : List String) : Except PyErr (List String × String) :=
  match html_path[3]? with
  | none => .error .indexError
  | some language_folder =>
      .ok (html_path,
        optimum_path ++ "/optimum/" ++ version ++ "/" ++ language_folder ++ "/" ++ subpackage
          ++ "/" ++ String.intercalate "/" (html_path.drop 4))

/-- `rename_copy_subpackage_html_paths` (combine_docs.py lines 38-80) on the
list of HTML paths found by `rglob`, abstracted to the list of performed
copies: each matched file is copied to its computed destination, in order,
stopping with the raised exception if some path is too shallow. -/
def rename_copy_subpackage_html_paths (subpackage : String)
    (subpackage_html_paths : List (List String)) (optimum_path version : String) :
    Except PyErr (List (List String × String)) :=
  subpackage_html_paths.mapM (relocate_html_file subpackage optimum_path version)

/-- A single chain of nested sections ending in one leaf: `chain t l 0` is a
leaf entry (nesting depth 1) and `chain t l (k+1)` wraps `chain t l k` in a
`sections` node, so `chain t l k` has nesting depth `k + 1`. -/
def chain (t l : String) : Nat → Entry
  | 0 => .mk (some t) (some l) none none
  | k + 1 => .mk (some t) none (some [chain t l k]) none

mutual

/-- Well-formedness of one entry as assumed by the specification: an entry is
either a leaf (it has `local` and no `sections`) or an internal node (it has
`sections`, all well formed, and no `local`) — never both, never neither. -/
def wfEntry : Entry → Bool
  | .mk _ (some _) none _ => true
  | .mk _ none (some secs) _ => wfEntries secs
  | _ => false

/-- Well-formedness of a list of entries. -/
def wfEntries : List Entry → Bool
  | [] => true
  | e :: rest => wfEntry e && wfEntries rest

end

mutual

/-- The `local` references of all leaves of one entry, in traversal order.
An entry with a `local` key is a leaf contributing its reference; otherwise
its `sections`, if any, are collected. -/
def leavesEntry : Entry → List String
  | .mk _ (some l) _ _ => [l]
  | .mk _ none (some secs) _ => leavesEntries secs
  | .mk _ none none _ => []

/-- The `local` references of all leaves of a list of entries, in order. -/
def leavesEntries : List Entry → List String
  | [] => []
  | e :: rest => leavesEntry e ++ leavesEntries rest

end

mutual

/-- The skeleton of an entry: every `local` value is blanked out while the
title, the `isExpanded` flag, the presence of each key and the whole nesting
structure are kept. -/
def skelEntry : Entry → Entry
  | .mk t l none e => .mk t (l.map fun _ => "") none e
  | .mk t l (some secs) e => .mk t (l.map fun _ => "") (some (skelEntries secs)) e

/-- The skeletons of a list of entries. -/
def skelEntries : List Entry → List Entry
  | [] => []
  | x :: rest => skelEntry x :: skelEntries rest

end

/-- C4: on the concrete parent TOC `[{"title": "Home", "local": "index"}]` and
the subpackage `"acme"` whose TOC is `[{"title": "Optimum Acme", "sections":
[{"title": "Intro", "local": "intro"}]}]`, running the rewrite, the title
shortening and the insert-at-position-1 steps yields exactly the parent TOC
`[{"title": "Home", "local": "index"}, {"title": "Acme", "sections":
[{"title": "Intro", "local": "acme/intro"}]}]` (with one relocation recorded,
for `"acme"`). -/
theorem example_scenario :
    main_loop
      (fun _ => [Entry.mk (some "Optimum Acme") none
        (some [Entry.mk (some "Intro") (some "intro") none none]) none])
      ["acme"]
      [Entry.mk (some "Home") (some "index") none none] =
    .ok ([Entry.mk (some "Home") (some "index") none none,
          Entry.mk (some "Acme") none
            (some [Entry.mk (some "Intro") (some "acme/intro") none none]) none],
         ["acme"]) := rfl

/-- C6: processing the subpackage `"neuron"` relocates no files (the
relocation record is unchanged) and inserts exactly one new top-level entry at
position 1 of the parent TOC: the entry titled `"AWS Trainium/Inferentia"`,
whose sections hold the single leaf referencing the fixed redirect path
`"docs/optimum-neuron/index"`, with `isExpanded` set to `False`. -/
theorem neuron_redirect_only (subpackage_tocs : String → List Entry)
    (first : Entry) (rest : List Entry) (relocated : List String) :
    process_subpackage subpackage_tocs (first :: rest, relocated) "neuron" =
      .ok (first ::
        Entry.mk (some "AWS Trainium/Inferentia") none
          (some [Entry.mk (some "🤗 Optimum Neuron") (some "docs/optimum-neuron/index") none none])
          (some false) :: rest,
        relocated) := rfl

/-- C3 (counterexample): on the chain TOC of nesting depth 1, a single
top-level leaf entry with no `sections` key, `rename_subpackage_toc` raises a
`KeyError` instead of prefixing the leaf reference. -/
theorem rename_chain_depth_one_fails :
    rename_subpackage_toc "habana" [chain "Title" "page" 0] = .error .keyError := rfl

/-- `renameItem` on a chain of nesting depth `k + 2` rewrites exactly the one
leaf reference at the bottom. -/
theorem renameItem_chain (s t l : String) (k : Nat) :
    renameItem s (chain t l (k + 1)) = .ok (chain t (s ++ "/" ++ l) (k + 1)) := by
  induction k with
  | zero => rfl
  | succ k ih =>
      have step1 : renameItem s (chain t l (k + 2)) =
          (renameFiles s [chain t l (k + 1)]).map
            (fun secs2 => Entry.mk (some t) none (some secs2) none) := rfl
      have step2 : renameFiles s [chain t l (k + 1)] =
          Except.bind (renameItem s (chain t l (k + 1))) (fun f2 => Except.ok [f2]) := rfl
      rw [step1, step2, ih]
      rfl

/-- C3 (amended): for every nesting depth of at least 2 — that is, for every
chain `[chain t l d]` with `d ≥ 1`, whose nesting depth is `d + 1` —
`rename_subpackage_toc` succeeds and prefixes the single leaf's `local`
reference with the subpackage name exactly once, leaving everything else in
place; at depth 1 it instead raises a `KeyError`. -/
theorem rename_chain_ok (s t l : String) (d : Nat) (hd : 1 ≤ d) :
    rename_subpackage_toc s [chain t l d] = .ok [chain t (s ++ "/" ++ l) d] := by
  obtain ⟨k, rfl⟩ : ∃ k, d = k + 1 := ⟨d - 1, by omega⟩
  have step : rename_subpackage_toc s [chain t l (k + 1)] =
      Except.bind (renameItem s (chain t l (k + 1))) (fun item2 => Except.ok [item2]) := rfl
  rw [step, renameItem_chain s t l k]
  rfl

/-- Witness for the amended C3 at depth 4. -/
theorem rename_chain_ok_witness :
    1 ≤ 3 ∧ rename_subpackage_toc "acme" [chain "Optimum Demo" "index" 3] =
      .ok [chain "Optimum Demo" ("acme" ++ "/" ++ "index") 3] :=
  ⟨by decide, rename_chain_ok "acme" "Optimum Demo" "index" 3 (by decide)⟩

/-- C2 (counterexample): a well-formed TOC tree consisting of one top-level
leaf (it has `local`, no `sections`, never both) is not rewritten: the single
application of `rename_subpackage_toc` raises a `KeyError`, leaving the leaf
unprefixed. -/
theorem rewrite_top_leaf_fails :
    wfEntries [Entry.mk (some "Start") (some "start") none none] = true ∧
    rename_subpackage_toc "intel" [Entry.mk (some "Start") (some "start") none none] =
      .error .keyError := ⟨rfl, rfl⟩

theorem except_bind_ok {α β γ : Type} (a : α) (f : α → Except γ β) :
    (Except.ok a >>= f) = f a := rfl

theorem except_bind_error {α β γ : Type} (err : γ) (f : α → Except γ β) :
    ((Except.error err : Except γ α) >>= f) = Except.error err := rfl

theorem except_map_ok {α β γ : Type} (g : α → β) (a : α) :
    Except.map g (Except.ok a : Except γ α) = Except.ok (g a) := rfl

theorem except_map_error {α β γ : Type} (g : α → β) (err : γ) :
    Except.map g (Except.error err : Except γ α) = Except.error err := rfl

theorem except_pure_eq {γ α : Type} (a : α) : (pure a : Except γ α) = Except.ok a := rfl

/-- C7: processing the subpackage `"graphcore"` still performs the file
relocation (the relocation record grows by `"graphcore"`), but no entry is
inserted into the parent TOC, which that iteration leaves entirely
unchanged. -/
theorem graphcore_excluded (subpackage_tocs : String → List Entry)
    (base_toc : List Entry) (relocated : List String) (e : Entry)
    (h : subpackage_entry "graphcore" (subpackage_tocs "graphcore") = .ok e) :
    process_subpackage subpackage_tocs (base_toc, relocated) "graphcore" =
      .ok (base_toc, relocated ++ ["graphcore"]) := by
  have step : process_subpackage subpackage_tocs (base_toc, relocated) "graphcore" =
      Except.bind (subpackage_entry "graphcore" (subpackage_tocs "graphcore"))
        (fun _ => Except.ok (base_toc, relocated ++ ["graphcore"])) := rfl
  rw [step, h]
  rfl

/-- Witness for C7 on a concrete well-formed graphcore TOC. -/
theorem graphcore_excluded_witness :
    process_subpackage
      (fun _ => [Entry.mk (some "Optimum Graphcore") none
        (some [Entry.mk (some "IPU") (some "ipu") none none]) none])
      ([Entry.mk (some "Home") (some "index") none none], []) "graphcore" =
      .ok ([Entry.mk (some "Home") (some "index") none none], ["graphcore"]) :=
  graphcore_excluded _ _ _
    (Entry.mk (some "Graphcore") none
      (some [Entry.mk (some "IPU") (some "graphcore/ipu") none none]) none) rfl

/-- C8: whenever some matched HTML file path has fewer than four parts (so no
part exists at zero-indexed position 3), the relocation pass raises an
`IndexError` — the modelled path-structure failure — instead of producing the
copy list. -/
theorem shallow_path_fails (subpackage optimum_path version : String)
    (paths : List (List String)) (p : List String)
    (hmem : p ∈ paths) (hlen : p.length < 4) :
    rename_copy_subpackage_html_paths subpackage paths optimum_path version =
      .error .indexError := by
  induction paths with
  | nil => cases hmem
  | cons q rest ih =>
      rw [rename_copy_subpackage_html_paths, List.mapM_cons]
      cases hq : q[3]? with
      | none =>
          have hrel : relocate_html_file subpackage optimum_path version q =
              .error .indexError := by
            rw [relocate_html_file, hq]
          rw [hrel, except_bind_error]
      | some lang =>
          have hp : p ∈ rest := by
            rcases List.mem_cons.mp hmem with h1 | h1
            · subst h1
              rw [List.getElem?_eq_none (by omega)] at hq
              cases hq
            · exact h1
          have hrec := ih hp
          rw [rename_copy_subpackage_html_paths] at hrec
          have hrel : relocate_html_file subpackage optimum_path version q =
              .ok (q, optimum_path ++ "/optimum/" ++ version ++ "/" ++ lang ++ "/" ++ subpackage
                ++ "/" ++ String.intercalate "/" (q.drop 4)) := by
            rw [relocate_html_file, hq]
          rw [hrel]
          simp only [except_bind_ok]
          rw [hrec, except_bind_error]

/-- Witness for C8: a two-part path makes the relocation pass fail. -/
theorem shallow_path_fails_witness :
    (["site", "page.html"] : List String) ∈ [["site", "page.html"]] ∧
    (["site", "page.html"] : List String).length < 4 ∧
    rename_copy_subpackage_html_paths "habana" [["site", "page.html"]] "optimum-doc-build" "main" =
      .error .indexError :=
  ⟨by simp, by decide,
    shallow_path_fails "habana" "optimum-doc-build" "main" [["site", "page.html"]]
      ["site", "page.html"] (by simp) (by decide)⟩

mutual

/-- `renameItem` only rewrites `local` values: the skeleton of its output
equals the skeleton of its input. -/
theorem renameItem_skel (s : String) (e e2 : Entry) (h : renameItem s e = .ok e2) :
    skelEntry e2 = skelEntry e := by
  match e with
  | .mk t l none ex =>
      simp only [renameItem] at h
      exact Except.noConfusion h
  | .mk t l (some secs) ex =>
      simp only [renameItem] at h
      cases hf : renameFiles s secs with
      | error err =>
          rw [hf, except_map_error] at h
          exact Except.noConfusion h
      | ok secs2 =>
          rw [hf, except_map_ok] at h
          injection h with h2
          subst h2
          simp only [skelEntry]
          rw [renameFiles_skel s secs secs2 hf]

/-- `renameFiles` only rewrites `local` values: the skeleton of its output
equals the skeleton of its input. -/
theorem renameFiles_skel (s : String) (es es2 : List Entry) (h : renameFiles s es = .ok es2) :
    skelEntries es2 = skelEntries es := by
  match es with
  | [] =>
      simp only [renameFiles] at h
      injection h with h2
      subst h2
      rfl
  | .mk t (some l) sec ex :: rest =>
      simp only [renameFiles] at h
      cases hr : renameFiles s rest with
      | error err =>
          rw [hr, except_map_error] at h
          exact Except.noConfusion h
      | ok r2 =>
          rw [hr, except_map_ok] at h
          injection h with h2
          subst h2
          simp only [skelEntries]
          rw [renameFiles_skel s rest r2 hr]
          cases sec with
          | none => rfl
          | some s0 => rfl
  | .mk t none sec ex :: rest =>
      simp only [renameFiles] at h
      cases hi : renameItem s (.mk t none sec ex) with
      | error err =>
          rw [hi, except_bind_error] at h
          exact Except.noConfusion h
      | ok f2 =>
          rw [hi] at h
          simp only [except_bind_ok] at h
          cases hr : renameFiles s rest with
          | error err =>
              rw [hr, except_bind_error] at h
              exact Except.noConfusion h
          | ok r2 =>
              rw [hr] at h
              simp only [except_bind_ok, except_pure_eq] at h
              injection h with h2
              subst h2
              simp only [skelEntries]
              rw [renameItem_skel s (.mk t none sec ex) f2 hi,
                renameFiles_skel s rest r2 hr]

end

/-- C9: on every TOC tree the rewrite accepts, `rename_subpackage_toc`
changes only the string values stored under `local` keys: blanking every
`local` value of input and output (the skeleton, which keeps every title,
every `isExpanded` value, the presence of every key, every section list
length and the whole nesting structure) yields identical trees. -/
theorem rename_toc_frame (s : String) (toc toc2 : List Entry)
    (h : rename_subpackage_toc s toc = .ok toc2) :
    skelEntries toc2 = skelEntries toc := by
  induction toc generalizing toc2 with
  | nil =>
      simp only [rename_subpackage_toc] at h
      injection h with h2
      subst h2
      rfl
  | cons item rest ih =>
      simp only [rename_subpackage_toc] at h
      cases hi : renameItem s item with
      | error err =>
          rw [hi, except_bind_error] at h
          exact Except.noConfusion h
      | ok item2 =>
          rw [hi] at h
          simp only [except_bind_ok] at h
          cases hr : rename_subpackage_toc s rest with
          | error err =>
              rw [hr, except_bind_error] at h
              exact Except.noConfusion h
          | ok rest2 =>
              rw [hr] at h
              simp only [except_bind_ok, except_pure_eq] at h
              injection h with h2
              subst h2
              simp only [skelEntries]
              rw [renameItem_skel s item item2 hi, ih rest2 hr]

/-- Witness for C9 on a concrete tree with a title, a nested section, an
`isExpanded` flag and two leaves. -/
theorem rename_toc_frame_witness :
    skelEntries
      [Entry.mk (some "Optimum Habana") none
        (some [Entry.mk (some "Intro") (some "habana/index") none none,
               Entry.mk (some "Guides") none
                 (some [Entry.mk (some "Train") (some "habana/train") none none])
                 (some true)])
        none] =
    skelEntries
      [Entry.mk (some "Optimum Habana") none
        (some [Entry.mk (some "Intro") (some "index") none none,
               Entry.mk (some "Guides") none
                 (some [Entry.mk (some "Train") (some "train") none none])
                 (some true)])
        none] :=
  rename_toc_frame "habana" _ _ rfl

mutual

/-- On a well-formed internal entry, `renameItem` succeeds and prefixes each
leaf reference below it exactly once. -/
theorem renameItem_leaves (s : String) (e : Entry)
    (hs : e.hasSections = true) (hw : wfEntry e = true) :
    ∃ e2, renameItem s e = .ok e2 ∧
      leavesEntry e2 = (leavesEntry e).map (fun l => s ++ "/" ++ l) := by
  match e with
  | .mk t (some l) (some s0) ex =>
      rw [show wfEntry (.mk t (some l) (some s0) ex) = false from rfl] at hw
      exact Bool.noConfusion hw
  | .mk t none (some secs) ex =>
      rw [show wfEntry (.mk t none (some secs) ex) = wfEntries secs from rfl] at hw
      obtain ⟨secs2, hok, hlv⟩ := renameFiles_leaves s secs hw
      refine ⟨.mk t none (some secs2) ex, ?_, ?_⟩
      · simp only [renameItem]
        rw [hok, except_map_ok]
      · simp only [leavesEntry]
        exact hlv
  | .mk t lo none ex =>
      rw [show (Entry.mk t lo none ex).hasSections = false from rfl] at hs
      exact Bool.noConfusion hs

/-- On a well-formed section list, `renameFiles` succeeds and prefixes each
leaf reference exactly once. -/
theorem renameFiles_leaves (s : String) (es : List Entry) (hw : wfEntries es = true) :
    ∃ es2, renameFiles s es = .ok es2 ∧
      leavesEntries es2 = (leavesEntries es).map (fun l => s ++ "/" ++ l) := by
  match es with
  | [] => exact ⟨[], rfl, rfl⟩
  | f :: rest =>
      simp only [wfEntries, Bool.and_eq_true] at hw
      obtain ⟨hwf, hwr⟩ := hw
      obtain ⟨r2, hrok, hrlv⟩ := renameFiles_leaves s rest hwr
      match f, hwf with
      | .mk t (some l) (some s0) ex, hwf =>
          rw [show wfEntry (.mk t (some l) (some s0) ex) = false from rfl] at hwf
          exact Bool.noConfusion hwf
      | .mk t (some l) none ex, hwf =>
          refine ⟨.mk t (some (s ++ "/" ++ l)) none ex :: r2, ?_, ?_⟩
          · simp only [renameFiles]
            rw [hrok, except_map_ok]
          · simp only [leavesEntries, leavesEntry, List.map_append]
            rw [hrlv]
            rfl
      | .mk t none (some secs) ex, hwf =>
          obtain ⟨f2, hfok, hflv⟩ :=
            renameItem_leaves s (.mk t none (some secs) ex) rfl hwf
          refine ⟨f2 :: r2, ?_, ?_⟩
          · simp only [renameFiles]
            rw [hfok]
            simp only [except_bind_ok]
            rw [hrok]
            simp only [except_bind_ok, except_pure_eq]
          · simp only [leavesEntries, List.map_append]
            rw [hflv, hrlv]
      | .mk t none none ex, hwf =>
          rw [show wfEntry (.mk t none none ex) = false from rfl] at hwf
          exact Bool.noConfusion hwf

end

/-- C2 (amended): on every TOC tree whose nodes are each either a leaf (a
`local` key) or an internal node (a `sections` key), never both, and whose
top-level entries are all internal, a single application of
`rename_subpackage_toc` succeeds and leaves every leaf reference prefixed
with the subpackage name and a slash exactly once — no leaf is prefixed
twice and no leaf is missed; on a tree with a top-level leaf the operation
instead raises a `KeyError`. -/
theorem rewrite_prefixes_leaves_once (s : String) (toc : List Entry)
    (htop : toc.all Entry.hasSections = true) (hw : wfEntries toc = true) :
    ∃ toc2, rename_subpackage_toc s toc = .ok toc2 ∧
      leavesEntries toc2 = (leavesEntries toc).map (fun l => s ++ "/" ++ l) := by
  revert htop hw
  induction toc with
  | nil => exact fun _ _ => ⟨[], rfl, rfl⟩
  | cons item rest ih =>
      intro htop hw
      simp only [List.all_cons, Bool.and_eq_true] at htop
      simp only [wfEntries, Bool.and_eq_true] at hw
      obtain ⟨item2, hiok, hilv⟩ := renameItem_leaves s item htop.1 hw.1
      obtain ⟨rest2, hrok, hrlv⟩ := ih htop.2 hw.2
      refine ⟨item2 :: rest2, ?_, ?_⟩
      · simp only [rename_subpackage_toc]
        rw [hiok]
        simp only [except_bind_ok]
        rw [hrok]
        simp only [except_bind_ok, except_pure_eq]
      · simp only [leavesEntries, List.map_append]
        rw [hilv, hrlv]

/-- Witness for the amended C2 on a concrete two-leaf tree. -/
theorem rewrite_prefixes_leaves_once_witness :
    ([Entry.mk (some "Optimum Intel") none
        (some [Entry.mk (some "A") (some "a") none none,
               Entry.mk (some "B") none
                 (some [Entry.mk (some "C") (some "c") none none]) none])
        none].all Entry.hasSections = true) ∧
    (wfEntries
      [Entry.mk (some "Optimum Intel") none
        (some [Entry.mk (some "A") (some "a") none none,
               Entry.mk (some "B") none
                 (some [Entry.mk (some "C") (some "c") none none]) none])
        none] = true) ∧
    ∃ toc2,
      rename_subpackage_toc "intel"
        [Entry.mk (some "Optimum Intel") none
          (some [Entry.mk (some "A") (some "a") none none,
                 Entry.mk (some "B") none
                   (some [Entry.mk (some "C") (some "c") none none]) none])
          none] = .ok toc2 ∧
      leavesEntries toc2 =
        (leavesEntries
          [Entry.mk (some "Optimum Intel") none
            (some [Entry.mk (some "A") (some "a") none none,
                   Entry.mk (some "B") none
                     (some [Entry.mk (some "C") (some "c") none none]) none])
            none]).map (fun l => "intel" ++ "/" ++ l) :=
  ⟨rfl, rfl, rewrite_prefixes_leaves_once "intel" _ rfl rfl⟩

/-- A non-excluded, non-redirect subpackage is relocated, rewritten and
inserted at position 1 by one loop iteration. -/
theorem process_subpackage_insert (subpackage_tocs : String → List Entry)
    (sub : String) (base : List Entry) (relocated : List String) (e : Entry)
    (h1 : sub ≠ "graphcore") (h2 : sub ≠ "neuron")
    (he : subpackage_entry sub (subpackage_tocs sub) = .ok e) :
    process_subpackage subpackage_tocs (base, relocated) sub =
      .ok (insert1 e base, relocated ++ [sub]) := by
  simp only [process_subpackage]
  rw [if_neg h2, he]
  simp only [except_bind_ok]
  rw [if_pos h1]

/-- C1: for subpackages `[A, B, C]`, none of them the exclusion token
`"graphcore"` or the redirect-only token `"neuron"`, the main loop (reverse
iteration with insert-at-position-1) produces a parent TOC in which the three
rewritten top-level entries follow the parent's original first entry in the
original caller order `[A, B, C]`, not reversed (relocations happen in
processing order `C`, `B`, `A`). -/
theorem main_loop_splice_order (subpackage_tocs : String → List Entry)
    (A B C : String) (eA eB eC : Entry) (first : Entry) (rest : List Entry)
    (hA1 : A ≠ "graphcore") (hA2 : A ≠ "neuron")
    (hB1 : B ≠ "graphcore") (hB2 : B ≠ "neuron")
    (hC1 : C ≠ "graphcore") (hC2 : C ≠ "neuron")
    (hA : subpackage_entry A (subpackage_tocs A) = .ok eA)
    (hB : subpackage_entry B (subpackage_tocs B) = .ok eB)
    (hC : subpackage_entry C (subpackage_tocs C) = .ok eC) :
    main_loop subpackage_tocs [A, B, C] (first :: rest) =
      .ok (first :: eA :: eB :: eC :: rest, [C, B, A]) := by
  have step : main_loop subpackage_tocs [A, B, C] (first :: rest) =
      Except.bind (process_subpackage subpackage_tocs (first :: rest, []) C)
        (fun st1 => Except.bind (process_subpackage subpackage_tocs st1 B)
          (fun st2 => Except.bind (process_subpackage subpackage_tocs st2 A)
            (fun st3 => Except.ok st3))) := rfl
  rw [step, process_subpackage_insert subpackage_tocs C (first :: rest) [] eC hC1 hC2 hC]
  show Except.bind
      (process_subpackage subpackage_tocs (first :: eC :: rest, [C]) B) _ = _
  rw [process_subpackage_insert subpackage_tocs B (first :: eC :: rest) [C] eB hB1 hB2 hB]
  show Except.bind
      (process_subpackage subpackage_tocs (first :: eB :: eC :: rest, [C, B]) A) _ = _
  rw [process_subpackage_insert subpackage_tocs A (first :: eB :: eC :: rest) [C, B] eA hA1 hA2 hA]
  rfl

/-- Witness for C1 on three concrete subpackages. -/
theorem main_loop_splice_order_witness :
    main_loop
      (fun _ => [Entry.mk (some "Optimum Demo") none
        (some [Entry.mk (some "Doc") (some "doc") none none]) none])
      ["alpha", "beta", "gamma"]
      [Entry.mk (some "Home") (some "index") none none] =
      .ok ([Entry.mk (some "Home") (some "index") none none,
            Entry.mk (some "Demo") none
              (some [Entry.mk (some "Doc") (some "alpha/doc") none none]) none,
            Entry.mk (some "Demo") none
              (some [Entry.mk (some "Doc") (some "beta/doc") none none]) none,
            Entry.mk (some "Demo") none
              (some [Entry.mk (some "Doc") (some "gamma/doc") none none]) none],
           ["gamma", "beta", "alpha"]) :=
  main_loop_splice_order _ "alpha" "beta" "gamma"
    (Entry.mk (some "Demo") none
      (some [Entry.mk (some "Doc") (some "alpha/doc") none none]) none)
    (Entry.mk (some "Demo") none
      (some [Entry.mk (some "Doc") (some "beta/doc") none none]) none)
    (Entry.mk (some "Demo") none
      (some [Entry.mk (some "Doc") (some "gamma/doc") none none]) none)
    (Entry.mk (some "Home") (some "index") none none) []
    (by decide) (by decide) (by decide) (by decide) (by decide) (by decide)
    rfl rfl rfl

theorem consHead_ne_nil (c : Char) (L : List (List Char)) : consHead c L ≠ [] := by
  cases L <;> simp [consHead]

theorem splitOnOptimum_ne_nil (s : List Char) : splitOnOptimum s ≠ [] := by
  induction s using splitOnOptimum.induct with
  | case1 => simp [splitOnOptimum]
  | case2 rest ih =>
      rw [splitOnOptimum.eq_2]
      simp
  | case3 c rest hcond ih =>
      rw [splitOnOptimum.eq_3 c rest hcond]
      exact consHead_ne_nil c _

theorem hasOptimum_cons (c : Char) (rest : List Char) :
    hasOptimum (c :: rest) = (OPT.isPrefixOf (c :: rest) || hasOptimum rest) := rfl

theorem opt_isPrefixOf_cons (rest : List Char) :
    OPT.isPrefixOf ('O' :: 'p' :: 't' :: 'i' :: 'm' :: 'u' :: 'm' :: ' ' :: rest) = true := by
  simp [OPT, List.isPrefixOf]

/-- Splitting a string without any occurrence of the separator returns the
one-element list holding the whole string. -/
theorem split_no_occurrence (s : List Char) (h : hasOptimum s = false) :
    splitOnOptimum s = [s] := by
  induction s using splitOnOptimum.induct with
  | case1 => rfl
  | case2 rest ih =>
      exfalso
      rw [hasOptimum_cons, opt_isPrefixOf_cons rest] at h
      exact Bool.noConfusion h
  | case3 c rest hcond ih =>
      rw [hasOptimum_cons, Bool.or_eq_false_iff] at h
      rw [splitOnOptimum.eq_3 c rest hcond, ih h.2]
      rfl

/-- Any string of the shape `p ++ "Optimum " ++ r` contains an occurrence. -/
theorem hasOptimum_of_append (p r : List Char) : hasOptimum (p ++ OPT ++ r) = true := by
  induction p with
  | nil =>
      rw [show ([] : List Char) ++ OPT ++ r
          = 'O' :: ('p' :: 't' :: 'i' :: 'm' :: 'u' :: 'm' :: ' ' :: r) from rfl,
        hasOptimum_cons, opt_isPrefixOf_cons r]
      rfl
  | cons c p2 ih =>
      rw [show (c :: p2) ++ OPT ++ r = c :: (p2 ++ OPT ++ r) from rfl, hasOptimum_cons, ih,
        Bool.or_true]

/-- A string containing an occurrence splits into at least two pieces. -/
theorem split_length_two_of_occurrence (s : List Char) (h : hasOptimum s = true) :
    2 ≤ (splitOnOptimum s).length := by
  induction s using splitOnOptimum.induct with
  | case1 => exact Bool.noConfusion h
  | case2 rest ih =>
      rw [splitOnOptimum.eq_2]
      have h1 : 0 < (splitOnOptimum rest).length :=
        List.length_pos.mpr (splitOnOptimum_ne_nil rest)
      simp only [List.length_cons]
      omega
  | case3 c rest hcond ih =>
      have hpre : OPT.isPrefixOf (c :: rest) = false := by
        cases hb : OPT.isPrefixOf (c :: rest) with
        | false => rfl
        | true =>
            exfalso
            obtain ⟨tail, htail⟩ := List.isPrefixOf_iff_prefix.mp hb
            rw [show OPT ++ tail
                = 'O' :: ('p' :: 't' :: 'i' :: 'm' :: 'u' :: 'm' :: ' ' :: tail) from rfl] at htail
            injection htail with hc hrest
            exact hcond tail hc.symm hrest.symm
      rw [hasOptimum_cons, hpre, Bool.false_or] at h
      have h2 := ih h
      rw [splitOnOptimum.eq_3 c rest hcond]
      cases hL : splitOnOptimum rest with
      | nil => exact absurd hL (splitOnOptimum_ne_nil rest)
      | cons x t =>
          rw [hL] at h2
          simp only [consHead, List.length_cons] at h2 ⊢
          omega

theorem getLastD_consHead (c : Char) (L : List (List Char)) (h : 2 ≤ L.length) :
    (consHead c L).getLastD [] = L.getLastD [] := by
  match L with
  | [] => simp at h
  | [x] => simp at h
  | x :: y :: t => simp only [consHead, List.getLastD_cons]

/-- The separator `"Optimum "` has no nontrivial border: no proper suffix of
it is one of its prefixes, so occurrences cannot overlap. -/
theorem opt_no_border : ∀ k, k < 8 → 0 < k → (OPT.drop k).isPrefixOf OPT = false := by decide

theorem getLastD_split_opt (r : List Char) (hr : hasOptimum r = false) :
    (splitOnOptimum (OPT ++ r)).getLastD [] = r := by
  rw [show splitOnOptimum (OPT ++ r) = [] :: splitOnOptimum r from rfl,
    split_no_occurrence r hr, List.getLastD_cons, List.getLastD_cons]
  rfl

theorem getLastD_split_append_aux (n : Nat) :
    ∀ (p r : List Char), p.length ≤ n → hasOptimum r = false →
      (splitOnOptimum (p ++ OPT ++ r)).getLastD [] = r := by
  induction n with
  | zero =>
      intro p r hn hr
      match p with
      | [] => exact getLastD_split_opt r hr
      | c :: p2 => simp at hn
  | succ n ih =>
      intro p r hn hr
      match p with
      | [] => exact getLastD_split_opt r hr
      | c :: p2 =>
          cases hb : OPT.isPrefixOf ((c :: p2) ++ OPT ++ r) with
          | false =>
              have e : (c :: p2) ++ OPT ++ r = c :: (p2 ++ OPT ++ r) := rfl
              rw [e] at hb ⊢
              have hcond : ∀ (rest1 : List Char), c = 'O' →
                  p2 ++ OPT ++ r
                    = 'p' :: 't' :: 'i' :: 'm' :: 'u' :: 'm' :: ' ' :: rest1 → False := by
                intro rest1 hc hrest
                rw [hc, hrest, opt_isPrefixOf_cons rest1] at hb
                exact Bool.noConfusion hb
              rw [splitOnOptimum.eq_3 c (p2 ++ OPT ++ r) hcond]
              rw [getLastD_consHead c _
                (split_length_two_of_occurrence _ (hasOptimum_of_append p2 r))]
              refine ih p2 r ?_ hr
              simp only [List.length_cons] at hn
              omega
          | true =>
              obtain ⟨tail, htail⟩ := List.isPrefixOf_iff_prefix.mp hb
              by_cases hlen : 8 ≤ (c :: p2).length
              · have htake : OPT = (c :: p2).take 8 := by
                  have h1 := congrArg (List.take 8) htail
                  rw [List.take_left' (show OPT.length = 8 from rfl)] at h1
                  rw [show (c :: p2) ++ OPT ++ r = (c :: p2) ++ (OPT ++ r) from
                    List.append_assoc _ _ _] at h1
                  rw [List.take_append_of_le_length hlen] at h1
                  exact h1
                have hq : c :: p2 = OPT ++ (c :: p2).drop 8 := by
                  nth_rewrite 1 [← List.take_append_drop 8 (c :: p2)]
                  rw [← htake]
                have e2 : (c :: p2) ++ OPT ++ r = OPT ++ ((c :: p2).drop 8 ++ OPT ++ r) := by
                  nth_rewrite 1 [hq]
                  simp [List.append_assoc]
                rw [e2]
                rw [show splitOnOptimum (OPT ++ ((c :: p2).drop 8 ++ OPT ++ r))
                    = [] :: splitOnOptimum ((c :: p2).drop 8 ++ OPT ++ r) from rfl]
                rw [List.getLastD_cons]
                refine ih ((c :: p2).drop 8) r ?_ hr
                simp only [List.length_drop, List.length_cons] at hn ⊢
                omega
              · exfalso
                push_neg at hlen
                have hklb : 0 < (c :: p2).length := by simp
                have h1 := congrArg (List.drop (c :: p2).length) htail
                rw [show (c :: p2) ++ OPT ++ r = (c :: p2) ++ (OPT ++ r) from
                  List.append_assoc _ _ _] at h1
                rw [List.drop_left' rfl] at h1
                have h2 : (OPT ++ tail).drop (c :: p2).length
                    = OPT.drop (c :: p2).length ++ tail := by
                  nth_rewrite 1 [show OPT ++ tail
                      = (OPT.take (c :: p2).length ++ OPT.drop (c :: p2).length) ++ tail from by
                    rw [List.take_append_drop]]
                  rw [List.append_assoc]
                  refine List.drop_left' ?_
                  rw [List.length_take]
                  have : OPT.length = 8 := rfl
                  omega
                rw [h2] at h1
                have hpA : OPT.drop (c :: p2).length <+: OPT ++ r := by
                  rw [← h1]
                  exact List.prefix_append _ _
                have hpB : OPT <+: OPT ++ r := List.prefix_append _ _
                have hlen2 : (OPT.drop (c :: p2).length).length ≤ OPT.length := by
                  rw [List.length_drop]
                  exact Nat.sub_le _ _
                have h3 : (OPT.drop (c :: p2).length).isPrefixOf OPT = true :=
                  List.isPrefixOf_iff_prefix.mpr
                    (List.prefix_of_prefix_length_le hpA hpB hlen2)
                have h4 := opt_no_border (c :: p2).length hlen hklb
                rw [h4] at h3
                exact Bool.noConfusion h3

/-- The last piece of the split of `p ++ "Optimum " ++ r`, when `"Optimum "`
does not occur in `r`, is exactly `r`. -/
theorem getLastD_split_append (p r : List Char) (hr : hasOptimum r = false) :
    (splitOnOptimum (p ++ OPT ++ r)).getLastD [] = r :=
  getLastD_split_append_aux p.length p r le_rfl hr

/-- C5: the title-shortening step replaces the title with exactly the
substring that follows the last occurrence of the literal `"Optimum "`:
whenever the title decomposes as `p ++ "Optimum " ++ r` with no further
occurrence inside `r` (so that this occurrence is the last one), the result
is exactly `r` — everything up to and including that occurrence is
stripped. -/
theorem shorten_title_strips_to_last_occurrence (t : String) (p r : List Char)
    (hp : t.data = p ++ OPT ++ r) (hr : hasOptimum r = false) :
    shorten_title t = r.asString := by
  rw [shorten_title, hp, getLastD_split_append p r hr]

/-- Witness for C5 on the title `"Optimum Habana"`. -/
theorem shorten_title_strips_witness :
    ("Optimum Habana".data = [] ++ OPT ++ "Habana".data) ∧
    hasOptimum "Habana".data = false ∧
    shorten_title "Optimum Habana" = ("Habana".data).asString :=
  ⟨rfl, by decide,
    shorten_title_strips_to_last_occurrence "Optimum Habana" [] ("Habana".data) rfl (by decide)⟩

/-- C10: when the title does not contain the substring `"Optimum "`, the
title-shortening step leaves it unchanged (it does not fail and does not
empty the title). -/
theorem shorten_title_no_occurrence (t : String) (h : hasOptimum t.data = false) :
    shorten_title t = t := by
  rw [shorten_title, split_no_occurrence t.data h, List.getLastD_cons]
  rfl

/-- Witness for C10 on the title `"Intel Hardware"`. -/
theorem shorten_title_no_occurrence_witness :
    hasOptimum "Intel Hardware".data = false ∧
    shorten_title "Intel Hardware" = "Intel Hardware" :=
  ⟨by decide, shorten_title_no_occurrence "Intel Hardware" (by decide)⟩

end CombineDocs
